import Mathlib

/-!
Shallow embedding of the noughts-and-crosses solver (`src/lib.rs`):
the bit-packed `Board` model and the recursive negamax `solve`.
Machine integers (`u16`, `usize`, `i32`) are modelled as `Nat` / `Int`;
all bit twiddling is over `Nat` with explicit 16-bit masks where the
Rust code relies on `u16` complement semantics.
-/

set_option maxRecDepth 100000
set_option maxHeartbeats 1000000

namespace XO

/-- The binary representation of the lines of three on the board
(`LINE_MASKS` in `src/lib.rs`). -/
def LINE_MASKS : List Nat :=
  [0b000000111, 0b000111000, 0b111000000,
   0b001001001, 0b010010010, 0b100100100,
   0b100010001, 0b001010100]

/-- `has_won(places)`: some winning line is fully contained in `places`. -/
def has_won (places : Nat) : Bool :=
  LINE_MASKS.any (fun line => places &&& line == line)

/-- `lowest_bit16(bits)`: `bits & !(bits - 1)` on `u16` (isolates the
lowest set bit; `0` maps to `0`).  The `u16` complement is `^^^ 65535`. -/
def lowest_bit16 (bits : Nat) : Nat :=
  if bits ≠ 0 then bits &&& ((bits - 1) ^^^ 65535) else 0

/-- `u16::count_ones`, restricted to the 16 bits a `u16` has. -/
def count_ones (n : Nat) : Nat :=
  ((List.range 16).map (fun i => (n >>> i) &&& 1)).sum

/-- The board: two occupancy bit-sets, `player` to move, `opponent`
just moved (`struct Board` in `src/lib.rs`). -/
structure Board where
  player : Nat
  opponent : Nat
deriving DecidableEq, Repr

/-- `Board::FULL = 0b111111111`. -/
def FULL : Nat := 0b111111111

/-- `Board::new()`: the empty board (`Default` gives both fields `0`). -/
def Board.new : Board := ⟨0, 0⟩

/-- Error messages of `InvalidBoard` in `from_bits`, kept verbatim. -/
def reasonPlayerExcess : String := "player has excess bits set"

def reasonOpponentExcess : String := "opponent has excess bits set"

def reasonOverlap : String := "player and opponent have both played the same cell"

def reasonPlayerTurns : String := "player has had too many turns"

def reasonOpponentTurns : String := "opponent has had too many turns"

def reasonPlayerWon : String := "opponent had a turn after player won"

/-- `Board::from_bits(player, opponent)`: validated construction,
mirroring the exact check order of the source (the `player_turns` /
`opponent_turns` locals are inlined). -/
def Board.from_bits (player opponent : Nat) : Except String Board :=
  if player &&& FULL ≠ player then .error reasonPlayerExcess
  else if opponent &&& FULL ≠ opponent then .error reasonOpponentExcess
  else if player ^^^ opponent ≠ player ||| opponent then .error reasonOverlap
  else if count_ones player > count_ones opponent then .error reasonPlayerTurns
  else if count_ones opponent > count_ones player + 1 then .error reasonOpponentTurns
  else if has_won player then .error reasonPlayerWon
  else .ok ⟨player, opponent⟩

/-- `Board::has_lost()`: the opponent (who just moved) has a line. -/
def Board.has_lost (b : Board) : Bool := has_won b.opponent

/-- `Board::with_move_bits(position)`: role swap, `position` added to the
new opponent set (the `debug_assert!`s are checks, not behaviour). -/
def Board.with_move_bits (b : Board) (position : Nat) : Board :=
  ⟨b.opponent, b.player ||| position⟩

/-- The loop body of `Moves::next`, iterated: peel lowest set bits off
`remain` and emit `with_move_bits` boards.  The extra `fuel` argument
only bounds the iteration; since every step strictly decreases `remain`,
starting `fuel` at `remain` itself reproduces the Rust iterator exactly
(it runs until `remain == 0`). -/
def movesAux (base : Board) : Nat → Nat → List Board
  | 0, _ => []
  | fuel + 1, remain =>
    if remain ≠ 0 then
      let b := lowest_bit16 remain
      base.with_move_bits b :: movesAux base fuel (remain &&& (b ^^^ 65535))
    else []

/-- `Board::moves()` collected to a list: `remain` is the set of open
cells, and the iterator drains it lowest-bit first. -/
def Board.moves (b : Board) : List Board :=
  let remain := FULL &&& ((b.player ||| b.opponent) ^^^ 65535)
  movesAux b remain remain

/-- `Board::with_move(cell)`: validated single-move application
(`Err(InvalidMove)` becomes `none`). -/
def Board.with_move (b : Board) (cell : Nat) : Option Board :=
  if cell > 8 then none
  else
    let bits := 1 <<< cell
    if bits &&& (b.player ||| b.opponent) ≠ 0 then none
    else if has_won b.opponent then none
    else some (b.with_move_bits bits)

/-- `LOSS : StatusInt = -1`. -/
def LOSS : Int := -1

/-- `WIN : StatusInt = 1`. -/
def WIN : Int := 1

/-- `DRAW : StatusInt = 0`. -/
def DRAW : Int := 0

/-- `i32::max`, written out (`max(a, b)` returns the larger argument). -/
def imax (a b : Int) : Int := if a < b then b else a

/-- The `for opponent_board in board.moves()` loop of `solve_inner`,
with its early `break` once `best_result == WIN`; `f` is the recursive
call at one less fuel. -/
def solveLoop (f : Board → Int × Nat) : List Board → Int → Nat → Int × Nat
  | [], best_result, games => (best_result, games)
  | opponent_board :: rest, best_result, games =>
    let rn := f opponent_board
    let games1 := games + rn.2
    let best_result1 := imax best_result (-rn.1)
    if best_result1 == WIN then (best_result1, games1)
    else solveLoop f rest best_result1 games1

/-- `solve_inner`, fuelled.  Each recursive call fills one more cell, so
any fuel above the number of empty cells (at most 9) gives the value of
the Rust recursion; fuel-independence is proved below. -/
def solve_innerF : Nat → Board → Int × Nat
  | 0, _ => (DRAW, 0)
  | fuel + 1, board =>
    if board.has_lost then (LOSS, 1)
    else
      let bg := solveLoop (solve_innerF fuel) board.moves (-1) 0
      if bg.2 == 0 then (DRAW, 1) else bg

/-- `solve_inner`: fuel `10` dominates the deepest possible recursion
(9 empty cells plus the root). -/
def solve_inner (board : Board) : Int × Nat := solve_innerF 10 board

/-- `enum Status`. -/
inductive Status where
  | Loss
  | Draw
  | Win
deriving DecidableEq, Repr

/-- `solve`: the `unreachable!()` arm of the `match` is modelled as
`none`. -/
def solve (board : Board) : Option (Status × Nat) :=
  let rn := solve_inner board
  if rn.1 = LOSS then some (Status.Loss, rn.2)
  else if rn.1 = DRAW then some (Status.Draw, rn.2)
  else if rn.1 = WIN then some (Status.Win, rn.2)
  else none

/-- The single-bit values `Moves::next` peels off `remain`, in order
(the move boards are `with_move_bits` applied to these). -/
def bitsList : Nat → Nat → List Nat
  | 0, _ => []
  | fuel + 1, remain =>
    if remain ≠ 0 then
      lowest_bit16 remain :: bitsList fuel (remain &&& (lowest_bit16 remain ^^^ 65535))
    else []

instance : DecidableEq (Except String Board) := fun a b =>
  match a, b with
  | .ok x, .ok y =>
    if h : x = y then .isTrue (by rw [h]) else .isFalse (by intro hh; cases hh; exact h rfl)
  | .ok _, .error _ => .isFalse (by intro hh; cases hh)
  | .error _, .ok _ => .isFalse (by intro hh; cases hh)
  | .error x, .error y =>
    if h : x = y then .isTrue (by rw [h]) else .isFalse (by intro hh; cases hh; exact h rfl)

/-- A board is valid when `from_bits` reconstructs it unchanged (this is
exactly the `SELF-CHECK` `debug_assert!` of `with_move_bits`). -/
def valid (b : Board) : Prop :=
  Board.from_bits b.player b.opponent = .ok b

instance (b : Board) : Decidable (valid b) := by unfold valid; infer_instance

/-- `valid` as a Bool, for the recursive all-visited-boards check. -/
def validB (b : Board) : Bool := decide (valid b)

/-- Every board examined by `solve_inner` down to the given depth is
valid, i.e. the `debug_assert!`s of `with_move_bits` can never fire:
losing boards are not expanded, all others have all their successors
checked recursively (a superset of what the pruned search visits). -/
def allVisitedValidF : Nat → Board → Bool
  | 0, _ => true
  | fuel + 1, b => validB b && (b.has_lost || b.moves.all (allVisitedValidF fuel))

/-- Modelled from the spec: `positions_visited` counts every board
passed to a recursive call during the (pruned) computation, the input
board itself not counted.  Statuses are propagated exactly as in
`solve_inner` so that the win cutoff happens at the same successor. -/
def visitLoop (f : Board → Int × Nat) : List Board → Int → Nat → Int × Nat
  | [], best_result, visited => (best_result, visited)
  | opponent_board :: rest, best_result, visited =>
    let rn := f opponent_board
    let visited1 := visited + 1 + rn.2
    let best_result1 := max best_result (-rn.1)
    if best_result1 == WIN then (best_result1, visited1)
    else visitLoop f rest best_result1 visited1

/-- Modelled from the spec: the spec-side count of boards expanded (see
`visitLoop`); a terminal board expands nothing. -/
def spec_visitedF : Nat → Board → Int × Nat
  | 0, _ => (DRAW, 0)
  | fuel + 1, board =>
    if board.has_lost then (LOSS, 0)
    else
      let bg := visitLoop (spec_visitedF fuel) board.moves (-1) 0
      if bg.2 == 0 then (DRAW, 0) else bg

/-- The number of terminal positions (completed games) tallied by the
pruned search: a lost board counts one, a board whose loop consumed no
successors counts one, and otherwise the counts of the successors
expanded before the win cutoff are summed.  The cutoff is driven by the
solver's own status, mirroring `best_result == WIN`. -/
def leavesList (g : Board → Nat) (s : Board → Int) : List Board → Nat
  | [] => 0
  | ob :: rest => g ob + (if s ob = LOSS then 0 else leavesList g s rest)

/-- Terminal-position count of one board, see `leavesList`. -/
def leavesF : Nat → Board → Nat
  | 0, _ => 0
  | fuel + 1, b =>
    if b.has_lost then 1
    else
      let L := leavesList (leavesF fuel) (fun ob => (solve_innerF fuel ob).1) b.moves
      if L = 0 then 1 else L

/-- The popcount of the open-cell set of a board. -/
def openCount (b : Board) : Nat :=
  count_ones (FULL &&& ((b.player ||| b.opponent) ^^^ 65535))

/-- `Nat.max`, spelled with `cond`/`Nat.ble` so that it reduces without
`Decidable` plumbing; used by the arithmetic mirror of the solver. -/
def nmax (a b : Nat) : Nat := cond (Nat.ble a b) b a

/-- `has_won`, with the `LINE_MASKS` iteration unfolded; definitionally
equal to `has_won` (see `has_wonM_eq`). -/
def has_wonM (o : Nat) : Bool :=
  (o &&& 7 == 7) ||
    ((o &&& 56 == 56) ||
      ((o &&& 448 == 448) ||
        ((o &&& 73 == 73) ||
          ((o &&& 146 == 146) ||
            ((o &&& 292 == 292) ||
              ((o &&& 273 == 273) ||
                ((o &&& 84 == 84) || false)))))))

/-- Arithmetic mirror of `solve_inner`'s move loop: statuses are coded
as `s + 1` (Loss `0`, Draw `1`, Win `2`), the open cells are peeled off
`remain` directly, and the running maximum is folded head-first with the
same win cutoff (`rn.1 == 0`: the reply loses, so we win and stop).
Proved equal to `solveLoop` in `bridge_loop` below; written with `cond`
and plain `Nat` so the kernel can evaluate it cheaply. -/
def childrenM (f : Nat → Nat → Nat × Nat) (p o : Nat) : Nat → Nat → Nat × Nat
  | 0, _ => (0, 0)
  | fuel + 1, remain =>
    cond (remain == 0) (0, 0)
      (let b := remain &&& ((remain - 1) ^^^ 65535)
       let rn := f o (p ||| b)
       cond (rn.1 == 0) (2, rn.2)
         (let t := childrenM f p o fuel (remain &&& (b ^^^ 65535))
          (nmax (2 - rn.1) t.1, rn.2 + t.2)))

/-- Arithmetic mirror of `solve_innerF` (statuses coded as `s + 1`),
see `childrenM`; proved equal to `solve_innerF` below. -/
def solveM : Nat → Nat → Nat → Nat × Nat
  | 0, _, _ => (1, 0)
  | fuel + 1, p, o =>
    cond (has_wonM o) (0, 1)
      (let remain := 511 &&& ((p ||| o) ^^^ 65535)
       let bg := childrenM (solveM fuel) p o remain remain
       cond (bg.2 == 0) (1, 1) bg)

/-- `childrenM` as a fold over the list of already-computed child
results (used to assemble the empty-board evaluation from the nine
per-first-move evaluations). -/
def combineList : List (Nat × Nat) → Nat × Nat
  | [] => (0, 0)
  | rn :: rest =>
    cond (rn.1 == 0) (2, rn.2)
      (let t := combineList rest
       (nmax (2 - rn.1) t.1, rn.2 + t.2))

/-! ### Bit-twiddling facts -/

theorem and_testBit_eq_zero_iff (x y : Nat) :
    x &&& y = 0 ↔ ∀ i, (x.testBit i && y.testBit i) = false := by
  constructor
  · intro h i
    have h2 := congrArg (fun z => Nat.testBit z i) h
    simpa using h2
  · intro h
    apply Nat.eq_of_testBit_eq
    intro i
    simpa using h i

theorem xor_eq_or_iff (x y : Nat) : x ^^^ y = x ||| y ↔ x &&& y = 0 := by
  constructor
  · intro h
    rw [and_testBit_eq_zero_iff]
    intro i
    have h2 := congrArg (fun z => Nat.testBit z i) h
    simp only [Nat.testBit_xor, Nat.testBit_or] at h2
    revert h2
    cases x.testBit i <;> cases y.testBit i <;> simp
  · intro h
    apply Nat.eq_of_testBit_eq
    intro i
    have h2 := (and_testBit_eq_zero_iff x y).mp h i
    simp only [Nat.testBit_xor, Nat.testBit_or]
    revert h2
    cases x.testBit i <;> cases y.testBit i <;> simp

theorem and_FULL_iff (x : Nat) : x &&& FULL = x ↔ x < 512 := by
  have h := Nat.and_pow_two_sub_one_eq_mod x 9
  norm_num at h
  rw [show FULL = 511 from rfl, h]
  omega

theorem and_one_shiftLeft_eq_zero_iff (x c : Nat) :
    x &&& (1 <<< c) = 0 ↔ x.testBit c = false := by
  rw [Nat.one_shiftLeft, and_testBit_eq_zero_iff]
  constructor
  · intro h
    have h2 := h c
    simpa [Nat.testBit_two_pow_self] using h2
  · intro h i
    by_cases hic : c = i
    · subst hic; simp [h]
    · simp [Nat.testBit_two_pow_of_ne hic]

theorem remain_testBit (occ c : Nat) (hc : c < 9) :
    (FULL &&& (occ ^^^ 65535)).testBit c = !occ.testBit c := by
  have hc16 : c < 16 := by omega
  rw [show FULL = 2 ^ 9 - 1 from rfl, show (65535 : Nat) = 2 ^ 16 - 1 from rfl]
  simp only [Nat.testBit_and, Nat.testBit_xor, Nat.testBit_two_pow_sub_one,
    decide_eq_true hc, decide_eq_true hc16]
  cases occ.testBit c <;> rfl

theorem remain_and_bit_eq_zero_iff (occ c : Nat) (hc : c < 9) :
    (FULL &&& (occ ^^^ 65535)) &&& (1 <<< c) = 0 ↔ occ.testBit c = true := by
  rw [and_one_shiftLeft_eq_zero_iff, remain_testBit occ c hc]
  cases occ.testBit c <;> simp

/-! ### Exhaustive 9-bit facts, checked by evaluation -/

theorem bitsList_drain : ∀ r, r < 512 →
    bitsList r r =
      ((List.range 9).filter fun c => (r &&& (1 <<< c)) != 0).map fun c => 1 <<< c := by
  decide

theorem count_ones_or_bit : ∀ p, p < 512 → ∀ c, c < 9 →
    p &&& (1 <<< c) = 0 → count_ones (p ||| (1 <<< c)) = count_ones p + 1 := by
  decide

theorem openCount_le_nine : ∀ occ, occ < 512 → count_ones (FULL &&& (occ ^^^ 65535)) ≤ 9 := by
  decide

theorem openCount_drop : ∀ occ, occ < 512 → ∀ c, c < 9 → occ &&& (1 <<< c) = 0 →
    count_ones (FULL &&& ((occ ||| (1 <<< c)) ^^^ 65535)) + 1 =
      count_ones (FULL &&& (occ ^^^ 65535)) := by
  decide

theorem emptyCells_length : ∀ occ, occ < 512 →
    ((List.range 9).filter fun c => (occ &&& (1 <<< c)) == 0).length = 9 - count_ones occ := by
  decide

theorem emptyCells_pos : ∀ occ, occ < 512 → occ ≠ 511 → 0 < 9 - count_ones occ := by
  decide

/-! ### The move iterator, characterised -/

theorem movesAux_eq_map (base : Board) :
    ∀ fuel remain, movesAux base fuel remain = (bitsList fuel remain).map base.with_move_bits := by
  intro fuel
  induction fuel with
  | zero => intro remain; rfl
  | succ n ih =>
    intro remain
    by_cases h : remain ≠ 0
    · simp [movesAux, bitsList, h, ih]
    · simp [movesAux, bitsList, h]

theorem moves_eq (b : Board) :
    b.moves =
      ((List.range 9).filter fun c => ((b.player ||| b.opponent) &&& (1 <<< c)) == 0).map
        fun c => Board.mk b.opponent (b.player ||| (1 <<< c)) := by
  have hlt : FULL &&& ((b.player ||| b.opponent) ^^^ 65535) < 512 := by
    have h := Nat.and_le_left (n := FULL) (m := (b.player ||| b.opponent) ^^^ 65535)
    rw [show FULL = 511 from rfl] at h ⊢
    omega
  rw [Board.moves, movesAux_eq_map, bitsList_drain _ hlt, List.map_map]
  rw [List.filter_congr (q := fun c => ((b.player ||| b.opponent) &&& (1 <<< c)) == 0)]
  · apply List.map_congr_left
    intro c _
    rfl
  · intro c hc
    have hc9 : c < 9 := by simpa using hc
    have h1 := remain_and_bit_eq_zero_iff (b.player ||| b.opponent) c hc9
    have h2 := and_one_shiftLeft_eq_zero_iff (b.player ||| b.opponent) c
    cases hb : (b.player ||| b.opponent).testBit c
    · have h3 : ¬(FULL &&& ((b.player ||| b.opponent) ^^^ 65535)) &&& (1 <<< c) = 0 := by
        simp [h1, hb]
      have h4 : (b.player ||| b.opponent) &&& (1 <<< c) = 0 := h2.mpr hb
      simp [h3, h4]
    · have h3 : (FULL &&& ((b.player ||| b.opponent) ^^^ 65535)) &&& (1 <<< c) = 0 :=
        h1.mpr hb
      have h4 : ¬(b.player ||| b.opponent) &&& (1 <<< c) = 0 := by
        simp [h2, hb]
      simp [h3, h4]

/-! ### `from_bits` and validity -/

theorem from_bits_ok_iff (p o : Nat) :
    (∃ b, Board.from_bits p o = .ok b) ↔
      (p &&& FULL = p ∧ o &&& FULL = o ∧ p &&& o = 0 ∧
       (count_ones o = count_ones p ∨ count_ones o = count_ones p + 1) ∧
       has_won p = false) := by
  unfold Board.from_bits
  split_ifs with h1 h2 h3 h4 h5 h6
  · simp [h1]
  · simp [h2]
  · constructor
    · intro ⟨b, hb⟩; cases hb
    · intro hh
      exact absurd ((xor_eq_or_iff p o).mpr hh.2.2.1) h3
  · constructor
    · intro ⟨b, hb⟩; cases hb
    · intro hh
      rcases hh.2.2.2.1 with h | h <;> omega
  · constructor
    · intro ⟨b, hb⟩; cases hb
    · intro hh
      rcases hh.2.2.2.1 with h | h <;> omega
  · constructor
    · intro ⟨b, hb⟩; cases hb
    · intro hh
      rw [hh.2.2.2.2] at h6; cases h6
  · constructor
    · intro _
      refine ⟨not_ne_iff.mp h1, not_ne_iff.mp h2,
        (xor_eq_or_iff p o).mp (not_ne_iff.mp h3), by omega, ?_⟩
      simpa using h6
    · intro _
      exact ⟨⟨p, o⟩, rfl⟩

theorem from_bits_ok_shape (p o : Nat) (b : Board) (h : Board.from_bits p o = .ok b) :
    b = ⟨p, o⟩ := by
  unfold Board.from_bits at h
  split_ifs at h
  cases h
  rfl

theorem valid_mk_iff (p o : Nat) :
    valid ⟨p, o⟩ ↔
      (p &&& FULL = p ∧ o &&& FULL = o ∧ p &&& o = 0 ∧
       (count_ones o = count_ones p ∨ count_ones o = count_ones p + 1) ∧
       has_won p = false) := by
  constructor
  · intro h
    exact (from_bits_ok_iff p o).mp ⟨_, h⟩
  · intro h
    obtain ⟨b, hb⟩ := (from_bits_ok_iff p o).mpr h
    have hs := from_bits_ok_shape p o b hb
    subst hs
    exact hb

/-- The single-move validity-preservation core: playing a fresh cell `c`
on a valid, not-yet-lost board gives a valid board again. -/
theorem valid_step (p o c : Nat) (hv : valid ⟨p, o⟩) (hnw : has_won o = false)
    (hc : c < 9) (hfree : (p ||| o) &&& (1 <<< c) = 0) :
    valid ⟨o, p ||| (1 <<< c)⟩ := by
  obtain ⟨hp9, ho9, hpo, hcnt, hwp⟩ := (valid_mk_iff p o).mp hv
  have hp512 : p < 512 := (and_FULL_iff p).mp hp9
  have ho512 : o < 512 := (and_FULL_iff o).mp ho9
  have hbit : (p ||| o).testBit c = false := (and_one_shiftLeft_eq_zero_iff _ c).mp hfree
  have hbits : p.testBit c = false ∧ o.testBit c = false := by
    rw [Nat.testBit_or] at hbit
    revert hbit
    cases p.testBit c <;> cases o.testBit c <;> simp
  have hpc : p &&& (1 <<< c) = 0 := (and_one_shiftLeft_eq_zero_iff p c).mpr hbits.1
  have hoc : o &&& (1 <<< c) = 0 := (and_one_shiftLeft_eq_zero_iff o c).mpr hbits.2
  have hshift : 1 <<< c < 512 := by
    rw [Nat.one_shiftLeft]
    calc 2 ^ c ≤ 2 ^ 8 := Nat.pow_le_pow_right (by norm_num) (by omega)
    _ < 512 := by norm_num
  rw [valid_mk_iff]
  refine ⟨ho9, ?_, ?_, ?_, hnw⟩
  · rw [and_FULL_iff]
    have := Nat.or_lt_two_pow (n := 9) (by simpa using hp512) (by simpa using hshift)
    simpa using this
  · rw [and_testBit_eq_zero_iff]
    intro i
    have h1 := (and_testBit_eq_zero_iff p o).mp hpo i
    have h2 := (and_testBit_eq_zero_iff o (1 <<< c)).mp hoc i
    rw [Nat.testBit_or]
    revert h1 h2
    cases o.testBit i <;> cases p.testBit i <;> cases (1 <<< c).testBit i <;> simp
  · have hco := count_ones_or_bit p hp512 c hc hpc
    rw [hco]
    rcases hcnt with h | h
    · right; omega
    · left; omega

/-! ### The arithmetic mirror agrees with the solver -/

theorem has_wonM_eq (o : Nat) : has_wonM o = has_won o := rfl

theorem nmax_eq (a b : Nat) : nmax a b = max a b := by
  unfold nmax
  cases hble : Nat.ble a b
  · have h : ¬ a ≤ b := by rw [← Nat.ble_eq]; simp [hble]
    simp only [cond]
    omega
  · have h : a ≤ b := by rw [← Nat.ble_eq]; exact hble
    simp only [cond]
    omega

theorem childrenM_fst_le (f : Nat → Nat → Nat × Nat) (p o : Nat) :
    ∀ fuel remain, (childrenM f p o fuel remain).1 ≤ 2 := by
  intro fuel
  induction fuel with
  | zero => intro remain; simp [childrenM]
  | succ n ih =>
    intro remain
    simp only [childrenM, Bool.cond_eq_ite]
    split_ifs with h1 h2
    · simp
    · simp
    · have ht := ih (remain &&& ((remain &&& ((remain - 1) ^^^ 65535)) ^^^ 65535))
      simp only [nmax_eq]
      omega

theorem solveM_fst_le (fuel p o : Nat) : (solveM fuel p o).1 ≤ 2 := by
  cases fuel with
  | zero => simp [solveM]
  | succ n =>
    simp only [solveM, Bool.cond_eq_ite]
    split_ifs with h1 h2
    · simp
    · simp
    · exact childrenM_fst_le (solveM n) p o _ _

theorem bridge_loop (fuel : Nat)
    (IH : ∀ p o, solve_innerF fuel ⟨p, o⟩ =
      (((solveM fuel p o).1 : Int) - 1, (solveM fuel p o).2)) :
    ∀ bf p o remain best games, best ≤ 1 →
      solveLoop (solve_innerF fuel) (movesAux ⟨p, o⟩ bf remain) (((best : Nat) : Int) - 1) games =
        (((nmax best (childrenM (solveM fuel) p o bf remain).1 : Nat) : Int) - 1,
          games + (childrenM (solveM fuel) p o bf remain).2) := by
  intro bf
  induction bf with
  | zero =>
    intro p o remain best games hb
    simp [movesAux, childrenM, solveLoop, nmax_eq, Nat.max_zero]
  | succ n ih =>
    intro p o remain best games hb
    by_cases h : remain = 0
    · subst h
      simp [movesAux, childrenM, solveLoop, nmax_eq, Nat.max_zero]
    · have hbeq : (remain == 0) = false := by simp [h]
      have hlb : lowest_bit16 remain = remain &&& ((remain - 1) ^^^ 65535) := by
        simp [lowest_bit16, h]
      simp only [movesAux, if_pos h, childrenM, hbeq, cond_false, solveLoop,
        Board.with_move_bits, hlb]
      rw [IH o (p ||| (remain &&& ((remain - 1) ^^^ 65535)))]
      dsimp only
      have hc2 := solveM_fst_le fuel o (p ||| (remain &&& ((remain - 1) ^^^ 65535)))
      by_cases hc : (solveM fuel o (p ||| (remain &&& ((remain - 1) ^^^ 65535)))).1 = 0
      · rw [hc]
        have him :
            imax (((best : Nat) : Int) - 1) (-((((0 : Nat) : Nat) : Int) - 1)) = 1 := by
          unfold imax
          split_ifs <;> push_cast <;> omega
        rw [him]
        have hwin : ((1 : Int) == WIN) = true := by simp [WIN]
        rw [hwin, if_pos rfl]
        have hcond :
            (cond ((0 : Nat) == 0) ((2 : Nat),
                (solveM fuel o (p ||| (remain &&& ((remain - 1) ^^^ 65535)))).2)
              (nmax (2 - 0)
                  (childrenM (solveM fuel) p o n
                    (remain &&& ((remain &&& ((remain - 1) ^^^ 65535)) ^^^ 65535))).1,
                (solveM fuel o (p ||| (remain &&& ((remain - 1) ^^^ 65535)))).2 +
                  (childrenM (solveM fuel) p o n
                    (remain &&& ((remain &&& ((remain - 1) ^^^ 65535)) ^^^ 65535))).2)) =
              ((2 : Nat),
                (solveM fuel o (p ||| (remain &&& ((remain - 1) ^^^ 65535)))).2) := rfl
        rw [hcond]
        have h2 : nmax best 2 = 2 := by rw [nmax_eq]; omega
        dsimp only
        rw [h2]
        norm_num
      · have hkey :
            imax (((best : Nat) : Int) - 1)
                (-(((solveM fuel o (p ||| (remain &&& ((remain - 1) ^^^ 65535)))).1 : Int) - 1)) =
              ((nmax best (2 - (solveM fuel o (p ||| (remain &&& ((remain - 1) ^^^ 65535)))).1) : Nat) : Int) - 1 := by
          rw [nmax_eq]
          unfold imax
          split_ifs <;> omega
        rw [hkey]
        have hb1 : nmax best (2 - (solveM fuel o (p ||| (remain &&& ((remain - 1) ^^^ 65535)))).1) ≤ 1 := by
          rw [nmax_eq]; omega
        have hne :
            ((((nmax best (2 - (solveM fuel o (p ||| (remain &&& ((remain - 1) ^^^ 65535)))).1) : Nat) : Int) - 1) == WIN) = false := by
          simp only [WIN, beq_eq_false_iff_ne]
          intro hh
          rw [nmax_eq] at hh
          omega
        rw [hne, if_neg Bool.false_ne_true]
        rw [ih p o (remain &&& ((remain &&& ((remain - 1) ^^^ 65535)) ^^^ 65535))
            (nmax best (2 - (solveM fuel o (p ||| (remain &&& ((remain - 1) ^^^ 65535)))).1))
            (games + (solveM fuel o (p ||| (remain &&& ((remain - 1) ^^^ 65535)))).2) hb1]
        have hcbeq :
            ((solveM fuel o (p ||| (remain &&& ((remain - 1) ^^^ 65535)))).1 == 0) = false := by
          simp [hc]
        rw [hcbeq, cond_false]
        dsimp only
        simp only [nmax_eq, Nat.max_assoc, Nat.add_assoc]

theorem solve_innerF_eq_solveM : ∀ fuel p o,
    solve_innerF fuel ⟨p, o⟩ = (((solveM fuel p o).1 : Int) - 1, (solveM fuel p o).2) := by
  intro fuel
  induction fuel with
  | zero => intro p o; simp [solve_innerF, solveM, DRAW]
  | succ n ih =>
    intro p o
    simp only [solve_innerF, solveM]
    cases hwon : has_won o
    · have hl : Board.has_lost ⟨p, o⟩ = false := hwon
      have hlM : has_wonM o = false := by rw [has_wonM_eq]; exact hwon
      simp only [hl, hlM, Bool.false_eq_true, if_false, cond_false, Board.moves, FULL]
      have hloop := bridge_loop n ih (511 &&& ((p ||| o) ^^^ 65535)) p o
        (511 &&& ((p ||| o) ^^^ 65535)) 0 0 (by omega)
      have h0 : (((0 : Nat) : Int) - 1) = -1 := by norm_num
      rw [h0] at hloop
      rw [hloop]
      have hz : nmax 0 (childrenM (solveM n) p o (511 &&& ((p ||| o) ^^^ 65535))
          (511 &&& ((p ||| o) ^^^ 65535))).1 =
          (childrenM (solveM n) p o (511 &&& ((p ||| o) ^^^ 65535))
            (511 &&& ((p ||| o) ^^^ 65535))).1 := by
        rw [nmax_eq]; omega
      rw [hz]
      by_cases ht : (childrenM (solveM n) p o (511 &&& ((p ||| o) ^^^ 65535))
          (511 &&& ((p ||| o) ^^^ 65535))).2 = 0
      · simp [ht, DRAW]
      · have htbeq : ((childrenM (solveM n) p o (511 &&& ((p ||| o) ^^^ 65535))
            (511 &&& ((p ||| o) ^^^ 65535))).2 == 0) = false := by simp [ht]
        simp [htbeq, ht]
    · have hl : Board.has_lost ⟨p, o⟩ = true := hwon
      have hlM : has_wonM o = true := by rw [has_wonM_eq]; exact hwon
      simp [hl, hlM, LOSS]

/-! ### Evaluating the mirror from the empty board

The nine first-move subtrees are evaluated by kernel reduction, then the
root combination is assembled symbolically. -/

theorem childrenM_eq_combine (f : Nat → Nat → Nat × Nat) (p o : Nat) :
    ∀ fuel remain,
      childrenM f p o fuel remain =
        combineList ((bitsList fuel remain).map fun b => f o (p ||| b)) := by
  intro fuel
  induction fuel with
  | zero => intro remain; rfl
  | succ n ih =>
    intro remain
    by_cases h : remain = 0
    · subst h
      simp [childrenM, bitsList, combineList]
    · have hbeq : (remain == 0) = false := by simp [h]
      have hlb : lowest_bit16 remain = remain &&& ((remain - 1) ^^^ 65535) := by
        simp [lowest_bit16, h]
      simp only [childrenM, bitsList, if_pos h, hbeq, cond_false, hlb,
        List.map_cons, combineList, ih]

theorem bits_of_511 : bitsList 511 511 = [1, 2, 4, 8, 16, 32, 64, 128, 256] := by
  decide

theorem solveM_cell0 : solveM 9 0 1 = (1, 1553) := by decide!

theorem solveM_cell1 : solveM 9 0 2 = (1, 4929) := by decide!

theorem solveM_cell2 : solveM 9 0 4 = (1, 2290) := by decide!

theorem solveM_cell3 : solveM 9 0 8 = (1, 6197) := by decide!

theorem solveM_cell4 : solveM 9 0 16 = (1, 3615) := by decide!

theorem solveM_cell5 : solveM 9 0 32 = (1, 7091) := by decide!

theorem solveM_cell6 : solveM 9 0 64 = (1, 2372) := by decide!

theorem solveM_cell7 : solveM 9 0 128 = (1, 7480) := by decide!

theorem solveM_cell8 : solveM 9 0 256 = (1, 3329) := by decide!

theorem solveM_empty : solveM 10 0 0 = (1, 38856) := by
  show solveM (9 + 1) 0 0 = (1, 38856)
  rw [solveM]
  have hw : has_wonM 0 = false := rfl
  rw [hw, cond_false]
  dsimp only
  have hrem : (511 : Nat) &&& (((0 : Nat) ||| 0) ^^^ 65535) = 511 := rfl
  rw [hrem, childrenM_eq_combine, bits_of_511]
  simp only [List.map_cons, List.map_nil, Nat.zero_or]
  rw [solveM_cell0, solveM_cell1, solveM_cell2, solveM_cell3, solveM_cell4,
    solveM_cell5, solveM_cell6, solveM_cell7, solveM_cell8]
  rfl

/-- The repository test `test_solve_from_empty` value: the pruned search
from the empty board reports a draw after 38856 completed games. -/
theorem solve_inner_empty : solve_inner Board.new = (0, 38856) := by
  show solve_innerF 10 ⟨0, 0⟩ = (0, 38856)
  rw [solve_innerF_eq_solveM 10 0 0, solveM_empty]
  rfl

/-! ### Status range, fuel-independence and per-node instrumentation -/

theorem solve_innerF_fst_range (fuel : Nat) (b : Board) :
    -1 ≤ (solve_innerF fuel b).1 ∧ (solve_innerF fuel b).1 ≤ 1 := by
  obtain ⟨p, o⟩ := b
  rw [solve_innerF_eq_solveM]
  have h := solveM_fst_le fuel p o
  dsimp only
  omega

theorem solveLoop_games_eq_leaves (fuel : Nat)
    (IH : ∀ b, (solve_innerF fuel b).2 = leavesF fuel b) :
    ∀ l best games, -1 ≤ best → best ≤ 0 →
      (solveLoop (solve_innerF fuel) l best games).2 =
        games + leavesList (leavesF fuel) (fun ob => (solve_innerF fuel ob).1) l := by
  intro l
  induction l with
  | nil => intro best games h1 h2; simp [solveLoop, leavesList]
  | cons ob rest ih =>
    intro best games h1 h2
    have hr := solve_innerF_fst_range fuel ob
    simp only [solveLoop, leavesList]
    by_cases hc : (solve_innerF fuel ob).1 = LOSS
    · have hmax : imax best (-(solve_innerF fuel ob).1) = 1 := by
        rw [hc]
        unfold imax LOSS
        split_ifs <;> omega
      rw [hmax]
      rw [show ((1 : Int) == WIN) = true from by simp [WIN], if_pos rfl]
      dsimp only
      rw [if_pos hc, IH ob]
      omega
    · have hLOSS : (solve_innerF fuel ob).1 ≠ -1 := by
        intro hh; exact hc (by rw [hh]; rfl)
      have hne : ((imax best (-(solve_innerF fuel ob).1)) == WIN) = false := by
        simp only [WIN, beq_eq_false_iff_ne]
        unfold imax
        split_ifs <;> omega
      rw [hne, if_neg Bool.false_ne_true]
      have hle : imax best (-(solve_innerF fuel ob).1) ≤ 0 := by
        unfold imax
        split_ifs <;> omega
      have hge : -1 ≤ imax best (-(solve_innerF fuel ob).1) := by
        unfold imax
        split_ifs <;> omega
      rw [ih _ _ hge hle, if_neg hc, IH ob]
      omega

theorem solve_innerF_games_eq_leavesF : ∀ fuel b, (solve_innerF fuel b).2 = leavesF fuel b := by
  intro fuel
  induction fuel with
  | zero => intro b; rfl
  | succ n ih =>
    intro b
    simp only [solve_innerF, leavesF]
    by_cases hl : b.has_lost
    · simp [hl]
    · simp only [hl, Bool.false_eq_true, if_false]
      have hbg : (solveLoop (solve_innerF n) b.moves (-1) 0).2 =
          leavesList (leavesF n) (fun ob => (solve_innerF n ob).1) b.moves := by
        rw [solveLoop_games_eq_leaves n ih b.moves (-1) 0 (by norm_num) (by norm_num)]
        omega
      by_cases hL : leavesList (leavesF n) (fun ob => (solve_innerF n ob).1) b.moves = 0
      · simp [hbg, hL]
      · simp [hbg, hL]

theorem solveLoop_congr (f g : Board → Int × Nat) :
    ∀ l best games, (∀ x ∈ l, f x = g x) →
      solveLoop f l best games = solveLoop g l best games := by
  intro l
  induction l with
  | nil => intro best games h; rfl
  | cons a rest ih =>
    intro best games h
    have hfa := h a (List.mem_cons_self a rest)
    simp only [solveLoop, hfa]
    cases hc : (imax best (-(g a).1) == WIN)
    · rw [if_neg Bool.false_ne_true]
      exact ih _ _ (fun x hx => h x (List.mem_cons_of_mem a hx))
    · simp

theorem or_bit_lt_512 (p c : Nat) (hp : p < 512) (hc : c < 9) : p ||| (1 <<< c) < 512 := by
  have hshift : 1 <<< c < 512 := by
    rw [Nat.one_shiftLeft]
    calc 2 ^ c ≤ 2 ^ 8 := Nat.pow_le_pow_right (by norm_num) (by omega)
    _ < 512 := by norm_num
  have := Nat.or_lt_two_pow (n := 9) (by simpa using hp) (by simpa using hshift)
  simpa using this

theorem openCount_child (p o c : Nat) (hp : p < 512) (ho : o < 512) (hc : c < 9)
    (hfree : (p ||| o) &&& (1 <<< c) = 0) :
    openCount ⟨o, p ||| (1 <<< c)⟩ + 1 = openCount ⟨p, o⟩ := by
  have hocc : p ||| o < 512 := by
    have := Nat.or_lt_two_pow (n := 9) (by simpa using hp) (by simpa using ho)
    simpa using this
  have hassoc : o ||| (p ||| (1 <<< c)) = (p ||| o) ||| (1 <<< c) := by
    rw [← Nat.or_assoc, Nat.or_comm o p]
  unfold openCount
  dsimp only
  rw [hassoc]
  exact openCount_drop (p ||| o) hocc c hc hfree

theorem solve_innerF_stable : ∀ k b, b.player < 512 → b.opponent < 512 → openCount b < k →
    ∀ n m, openCount b < n → openCount b < m → solve_innerF n b = solve_innerF m b := by
  intro k
  induction k with
  | zero => intro b _ _ h; omega
  | succ k ih =>
    intro b hp ho hk n m hn hm
    obtain ⟨p, o⟩ := b
    obtain ⟨n1, rfl⟩ : ∃ n1, n = n1 + 1 := ⟨n - 1, by omega⟩
    obtain ⟨m1, rfl⟩ : ∃ m1, m = m1 + 1 := ⟨m - 1, by omega⟩
    simp only [solve_innerF]
    by_cases hl : Board.has_lost ⟨p, o⟩
    · simp [hl]
    · simp only [hl, Bool.false_eq_true, if_false]
      have hcong := solveLoop_congr (solve_innerF n1) (solve_innerF m1)
        (Board.moves ⟨p, o⟩) (-1) 0 ?_
      · rw [hcong]
      · intro x hx
        rw [moves_eq] at hx
        simp only [List.mem_map, List.mem_filter, List.mem_range] at hx
        obtain ⟨c, ⟨hc9, hfree⟩, rfl⟩ := hx
        have hfree2 : (p ||| o) &&& (1 <<< c) = 0 := by simpa using hfree
        have hdrop := openCount_child p o c hp ho hc9 hfree2
        apply ih <;> try omega
        · exact ho
        · exact or_bit_lt_512 p c hp hc9

theorem allVisitedValidF_of_valid : ∀ fuel b, valid b → allVisitedValidF fuel b = true := by
  intro fuel
  induction fuel with
  | zero => intro b _; rfl
  | succ n ih =>
    intro b hv
    simp only [allVisitedValidF, Bool.and_eq_true, Bool.or_eq_true, List.all_eq_true]
    refine ⟨by simpa [validB] using hv, ?_⟩
    by_cases hl : b.has_lost
    · left; exact hl
    · right
      intro x hx
      obtain ⟨p, o⟩ := b
      rw [moves_eq] at hx
      simp only [List.mem_map, List.mem_filter, List.mem_range] at hx
      obtain ⟨c, ⟨hc9, hfree⟩, rfl⟩ := hx
      have hfree2 : (p ||| o) &&& (1 <<< c) = 0 := by simpa using hfree
      have hnw : has_won o = false := by
        simpa [Board.has_lost] using hl
      exact ih _ (valid_step p o c hv hnw hc9 hfree2)

theorem valid_player_lt (b : Board) (hv : valid b) : b.player < 512 := by
  obtain ⟨p, o⟩ := b
  exact (and_FULL_iff p).mp ((valid_mk_iff p o).mp hv).1

theorem valid_opponent_lt (b : Board) (hv : valid b) : b.opponent < 512 := by
  obtain ⟨p, o⟩ := b
  exact (and_FULL_iff o).mp ((valid_mk_iff p o).mp hv).2.1

theorem valid_openCount_le (b : Board) (hv : valid b) : openCount b ≤ 9 := by
  have hp := valid_player_lt b hv
  have ho := valid_opponent_lt b hv
  have hocc : b.player ||| b.opponent < 512 := by
    have := Nat.or_lt_two_pow (n := 9) (by simpa using hp) (by simpa using ho)
    simpa using this
  exact openCount_le_nine _ hocc

theorem from_bits_error_cases (p o : Nat) (r : String)
    (h : Board.from_bits p o = .error r) :
    (r = reasonPlayerExcess ∧ p &&& FULL ≠ p) ∨
    (r = reasonOpponentExcess ∧ o &&& FULL ≠ o) ∨
    (r = reasonOverlap ∧ p &&& o ≠ 0) ∨
    (r = reasonPlayerTurns ∧ count_ones o < count_ones p) ∨
    (r = reasonOpponentTurns ∧ count_ones p + 1 < count_ones o) ∨
    (r = reasonPlayerWon ∧ has_won p = true) := by
  unfold Board.from_bits at h
  split_ifs at h with h1 h2 h3 h4 h5 h6
  · injection h with hr
    exact Or.inl ⟨hr.symm, h1⟩
  · injection h with hr
    exact Or.inr (Or.inl ⟨hr.symm, h2⟩)
  · injection h with hr
    refine Or.inr (Or.inr (Or.inl ⟨hr.symm, fun hz => h3 ?_⟩))
    exact (xor_eq_or_iff p o).mpr hz
  · injection h with hr
    exact Or.inr (Or.inr (Or.inr (Or.inl ⟨hr.symm, h4⟩)))
  · injection h with hr
    exact Or.inr (Or.inr (Or.inr (Or.inr (Or.inl ⟨hr.symm, h5⟩))))
  · injection h with hr
    exact Or.inr (Or.inr (Or.inr (Or.inr (Or.inr ⟨hr.symm, h6⟩))))

/-! ### The claims -/

/-- C1 (counterexample): the claim that evaluating the empty board
returns `(Draw, 255168)` is false on this code: the search prunes once a
winning reply is found, and the repository pins the pruned count. -/
theorem solve_empty_not_255168 : solve Board.new ≠ some (Status.Draw, 255168) := by
  simp [solve, solve_inner_empty, LOSS, DRAW, WIN]

/-- C1 (amended): `solve` on the empty board returns `Draw` with a
positions count of exactly 38856, the value pinned by
`test_solve_from_empty`. -/
theorem solve_empty_draw_38856 : solve Board.new = some (Status.Draw, 38856) := by
  simp [solve, solve_inner_empty, LOSS, DRAW, WIN]

/-- C2 (counterexample): on the valid seven-move board
`player = 28, opponent = 99` the solver's count is `2`, but four boards
are passed to recursive calls (two children and two grandchildren), so
the count does not count every board expanded. -/
theorem count_not_boards_visited :
    Board.from_bits 28 99 = .ok ⟨28, 99⟩ ∧
      (solve_inner ⟨28, 99⟩).2 = 2 ∧ (spec_visitedF 10 ⟨28, 99⟩).2 = 4 := by
  refine ⟨by decide, by decide, by decide⟩

/-- C2 (amended): the count returned by the solver equals the number of
terminal positions (completed games) reached by the pruned search: a
lost or move-less board contributes one, and an interior board
contributes the sum over the successors expanded before the win cutoff,
nothing for itself. -/
theorem solve_count_eq_completed_games (fuel : Nat) (b : Board) :
    (solve_innerF fuel b).2 = leavesF fuel b :=
  solve_innerF_games_eq_leavesF fuel b

/-- C3: `from_bits` accepts exactly the boards satisfying the four
invariants (9-bit fields, disjointness, opponent moved last, player has
not won), and every rejection carries a distinct reason naming the
violated invariant. -/
theorem from_bits_accepts_iff_invariants (p o : Nat) :
    ((∃ b, Board.from_bits p o = .ok b) ↔
      (p &&& FULL = p ∧ o &&& FULL = o ∧ p &&& o = 0 ∧
       (count_ones o = count_ones p ∨ count_ones o = count_ones p + 1) ∧
       has_won p = false))
    ∧ [reasonPlayerExcess, reasonOpponentExcess, reasonOverlap,
        reasonPlayerTurns, reasonOpponentTurns, reasonPlayerWon].Nodup
    ∧ (∀ r, Board.from_bits p o = .error r →
        ((r = reasonPlayerExcess ∧ p &&& FULL ≠ p) ∨
         (r = reasonOpponentExcess ∧ o &&& FULL ≠ o) ∨
         (r = reasonOverlap ∧ p &&& o ≠ 0) ∨
         (r = reasonPlayerTurns ∧ count_ones o < count_ones p) ∨
         (r = reasonOpponentTurns ∧ count_ones p + 1 < count_ones o) ∨
         (r = reasonPlayerWon ∧ has_won p = true))) :=
  ⟨from_bits_ok_iff p o, by decide, fun r h => from_bits_error_cases p o r h⟩

/-- C3 (witness): the invariant-satisfying pair `(0, 1)` is accepted,
and the overlapping pair `(1, 1)` is rejected for overlap. -/
theorem from_bits_accepts_iff_invariants_witness :
    (∃ b, Board.from_bits 0 1 = .ok b) ∧ ((1 : Nat) &&& 1 ≠ 0) := by
  refine ⟨(from_bits_accepts_iff_invariants 0 1).1.mpr (by decide), ?_⟩
  have h := ((from_bits_accepts_iff_invariants 1 1).2.2 reasonOverlap (by decide))
  rcases h with ⟨hr, _⟩ | ⟨hr, _⟩ | ⟨_, hx⟩ | ⟨hr, _⟩ | ⟨hr, _⟩ | ⟨hr, _⟩ <;>
    first
      | exact hx
      | exact absurd hr (by decide)

/-- C4: `with_move(c)` fails exactly when the cell index is above 8, the
cell is occupied, or the opponent has already won; on success the roles
swap and the chosen bit joins the new opponent set. -/
theorem with_move_spec (b : Board) (c : Nat) :
    (b.with_move c = none ↔
      (8 < c ∨ (1 <<< c) &&& (b.player ||| b.opponent) ≠ 0 ∨ has_won b.opponent = true))
    ∧ ∀ b2, b.with_move c = some b2 →
        b2.player = b.opponent ∧ b2.opponent = b.player ||| (1 <<< c) := by
  simp only [Board.with_move]
  split_ifs with h1 h2 h3
  · constructor
    · constructor
      · intro _; exact Or.inl h1
      · intro _; rfl
    · intro b2 hb2; cases hb2
  · constructor
    · constructor
      · intro _; exact Or.inr (Or.inl h2)
      · intro _; rfl
    · intro b2 hb2; cases hb2
  · constructor
    · constructor
      · intro _; exact Or.inr (Or.inr h3)
      · intro _; rfl
    · intro b2 hb2; cases hb2
  · constructor
    · constructor
      · intro hh; cases hh
      · intro hh
        rcases hh with hh | hh | hh
        · omega
        · exact absurd hh (by simpa using h2)
        · exact absurd hh (by simpa using h3)
    · intro b2 hb2
      injection hb2 with hb2
      rw [← hb2]
      exact ⟨rfl, rfl⟩

/-- C4 (witness): from the empty board, cell 9 is rejected and playing
cell 4 swaps roles and adds bit 4 to the new opponent set. -/
theorem with_move_spec_witness :
    Board.new.with_move 9 = none ∧ (Board.mk 0 16).opponent = 0 ||| (1 <<< 4) :=
  ⟨(with_move_spec Board.new 9).1.mpr (Or.inl (by decide)),
    ((with_move_spec ⟨0, 0⟩ 4).2 ⟨0, 16⟩ (by decide)).2⟩

/-- C5: a legal move on a valid board yields a valid board: whenever
`with_move` succeeds from a board accepted by `from_bits`, the result is
again accepted by `from_bits`. -/
theorem with_move_preserves_invariants (b : Board) (c : Nat) (b2 : Board)
    (hv : valid b) (h : b.with_move c = some b2) : valid b2 := by
  obtain ⟨p, o⟩ := b
  simp only [Board.with_move] at h
  split_ifs at h with h1 h2 h3
  injection h with h
  have hfree : (p ||| o) &&& (1 <<< c) = 0 := by
    rw [Nat.and_comm]
    simpa using h2
  have hnw : has_won o = false := by
    simpa using h3
  rw [← h]
  exact valid_step p o c hv hnw (by omega) hfree

/-- C5 (witness): playing cell 4 on the empty board gives the valid
board `⟨0, 16⟩`. -/
theorem with_move_preserves_invariants_witness : valid ⟨0, 16⟩ :=
  with_move_preserves_invariants ⟨0, 0⟩ 4 ⟨0, 16⟩ (by decide) (by decide)

/-- C6: a valid board on which `has_lost()` holds evaluates to
`(Loss, 1)` immediately, expanding no successors. -/
theorem lost_board_evaluates_loss_one (b : Board) (hv : valid b)
    (hl : b.has_lost = true) : solve b = some (Status.Loss, 1) := by
  have hinner : solve_inner b = (LOSS, 1) := by
    show solve_innerF (9 + 1) b = (LOSS, 1)
    rw [solve_innerF, if_pos hl]
  simp [solve, hinner, LOSS, DRAW, WIN]

/-- C6 (witness): the valid board with the top row completed for the
opponent evaluates to `(Loss, 1)`. -/
theorem lost_board_evaluates_loss_one_witness : solve ⟨24, 7⟩ = some (Status.Loss, 1) :=
  lost_board_evaluates_loss_one ⟨24, 7⟩ (by decide) (by decide)

/-- C7: a valid board that is not lost and has no moves (all nine cells
occupied) evaluates to `(Draw, 1)`. -/
theorem full_board_evaluates_draw_one (b : Board) (hv : valid b)
    (hl : b.has_lost = false) (hm : b.moves = []) : solve b = some (Status.Draw, 1) := by
  have hinner : solve_inner b = (DRAW, 1) := by
    show solve_innerF (9 + 1) b = (DRAW, 1)
    rw [solve_innerF]
    simp only [hl, Bool.false_eq_true, if_false, hm]
    simp [solveLoop]
  simp [solve, hinner, LOSS, DRAW, WIN]

/-- C7 (witness): a full drawn board evaluates to `(Draw, 1)`. -/
theorem full_board_evaluates_draw_one_witness : solve ⟨114, 397⟩ = some (Status.Draw, 1) :=
  full_board_evaluates_draw_one ⟨114, 397⟩ (by decide) (by decide) (by decide)

/-- C8: `moves()` yields exactly one successor per empty cell in
increasing cell-index order, each with roles swapped and the cell's bit
added to the new opponent set; the empty board yields nine successors
and a full board yields none. -/
theorem moves_enumeration (b : Board) :
    (b.moves =
      ((List.range 9).filter fun c => ((b.player ||| b.opponent) &&& (1 <<< c)) == 0).map
        fun c => Board.mk b.opponent (b.player ||| (1 <<< c)))
    ∧ Board.new.moves.length = 9
    ∧ (Board.mk 0b101010101 0b010101010).moves = [] :=
  ⟨moves_eq b, by decide, by decide⟩

/-- C9: on every valid board the solver is total and fuel-independent:
any fuel above the maximal game depth gives the same value, the status
is one of `LOSS`, `DRAW`, `WIN` (so the `unreachable!()` arm of `solve`
is never taken and `solve` returns `some`), and every board examined
down to the full depth is valid, so no `debug_assert!` can fire. -/
theorem solve_total_on_valid (b : Board) (hv : valid b) :
    (∀ fuel, 9 < fuel → solve_innerF fuel b = solve_inner b)
    ∧ ((solve_inner b).1 = LOSS ∨ (solve_inner b).1 = DRAW ∨ (solve_inner b).1 = WIN)
    ∧ (solve b).isSome = true
    ∧ allVisitedValidF 10 b = true := by
  have hp := valid_player_lt b hv
  have ho := valid_opponent_lt b hv
  have hoc := valid_openCount_le b hv
  have hr := solve_innerF_fst_range 10 b
  refine ⟨?_, ?_, ?_, allVisitedValidF_of_valid 10 b hv⟩
  · intro fuel hf
    exact solve_innerF_stable 10 b hp ho (by omega) fuel 10 (by omega) (by omega)
  · simp only [solve_inner, LOSS, DRAW, WIN]
    omega
  · simp only [solve, solve_inner]
    split_ifs with hA hB hC
    · rfl
    · rfl
    · rfl
    · exfalso
      simp only [LOSS, DRAW, WIN] at hA hB hC
      omega

/-- C9 (witness): instantiated on the (valid) empty board. -/
theorem solve_total_on_valid_witness :
    solve_innerF 11 Board.new = solve_inner Board.new
    ∧ (solve Board.new).isSome = true
    ∧ allVisitedValidF 10 Board.new = true := by
  have h := solve_total_on_valid Board.new (by decide)
  exact ⟨h.1 11 (by decide), h.2.2.1, h.2.2.2⟩

/-- C10: `moves()` does not check whether the game is decided: on a
lost board with empty cells it still yields one successor per empty
cell, while `with_move` rejects every cell on that same board. -/
theorem moves_ignore_decided_games (b : Board) (hp : b.player < 512)
    (ho : b.opponent < 512) (hl : b.has_lost = true)
    (hne : b.player ||| b.opponent ≠ 511) :
    b.moves.length = 9 - count_ones (b.player ||| b.opponent)
    ∧ b.moves ≠ []
    ∧ ∀ c, b.with_move c = none := by
  have hocc : b.player ||| b.opponent < 512 := by
    have := Nat.or_lt_two_pow (n := 9) (by simpa using hp) (by simpa using ho)
    simpa using this
  have hlen : b.moves.length = 9 - count_ones (b.player ||| b.opponent) := by
    rw [moves_eq, List.length_map]
    exact emptyCells_length _ hocc
  refine ⟨hlen, ?_, ?_⟩
  · have hpos := emptyCells_pos _ hocc hne
    intro h0
    rw [h0] at hlen
    simp at hlen
    omega
  · intro c
    simp only [Board.with_move]
    split_ifs with h1 h2 h3
    · rfl
    · rfl
    · rfl
    · exact absurd hl (by simpa using h3)

/-- C10 (witness): the lost board `⟨24, 7⟩` (top row for the opponent,
four empty cells) still enumerates four successors while every
`with_move` call fails. -/
theorem moves_ignore_decided_games_witness :
    (Board.mk 24 7).moves.length = 4 ∧ (Board.mk 24 7).with_move 3 = none := by
  have h := moves_ignore_decided_games ⟨24, 7⟩ (by decide) (by decide) (by decide) (by decide)
  exact ⟨h.1.trans (by decide), h.2.2 3⟩

end XO
